import Mathlib

/-!
Verification of the chunk-conveyor scheduler of tomocupy (GPURec in
src/tomocupy/rec.py) and of the interleave layout transforms of the
Fourier backprojection adapter (src/tomocupy/fourierrec.py).

The conveyor loop of GPURec.recon_all (rec.py lines 155-200) is embedded
as the list of events each iteration emits, in the order the statements
appear in the loop body.  Chunk indices are loop positions, matching the
FIFO queue order assumed by the spec.
-/

namespace Tomocupy

/-- Events emitted by one pass of the conveyor loop body of recon_all.
`ingest c g` models the queue pull plus pinned-buffer write plus the
host-to-device copy enqueued on stream1 for chunk `c` at generation `g`
(rec.py 179-190); `compute c g` models the stream2 reconstruction block
(rec.py 158-172); `egestCopy c g` models the stream3 device-to-host copy
(rec.py 174-178); `dispatch c` models handing the write job for chunk `c`
to the chosen worker slot (rec.py 192-197); `sync1`, `sync2`, `sync3`
model the three stream synchronize calls. -/
inductive Ev where
  | ingest (chunk gen : Nat)
  | compute (chunk gen : Nat)
  | egestCopy (chunk gen : Nat)
  | sync3
  | dispatch (chunk : Nat)
  | sync1
  | sync2
  deriving DecidableEq

/-- The events of loop iteration `k` of recon_all with `nzchunk` chunks,
in source order: the stream2 block fires when `k > 0 and k < nzchunk+1`
on chunk `k-1` at generation `(k-1) % 2`; the stream3 copy fires when
`k > 1` on chunk `k-2` at generation `(k-2) % 2`; the ingest fires when
`k < nzchunk` on chunk `k` at generation `k % 2`; then
`stream3.synchronize()`, then (when `k > 1`) the write-thread run call,
then `stream1.synchronize()` and `stream2.synchronize()`. -/
def iterEvents (nzchunk k : Nat) : List Ev :=
  (if 0 < k ∧ k < nzchunk + 1 then [Ev.compute (k - 1) ((k - 1) % 2)] else [])
    ++ (if 1 < k then [Ev.egestCopy (k - 2) ((k - 2) % 2)] else [])
    ++ (if k < nzchunk then [Ev.ingest k (k % 2)] else [])
    ++ [Ev.sync3]
    ++ (if 1 < k then [Ev.dispatch (k - 2)] else [])
    ++ [Ev.sync1, Ev.sync2]

/-- The sequence of loop counter values of recon_all: `for k in range(nzchunk+2)`. -/
def loopIters (nzchunk : Nat) : List Nat := List.range (nzchunk + 2)

/-- The full event trace of the conveyor loop of recon_all. -/
def reconTrace (nzchunk : Nat) : List Ev := (loopIters nzchunk).flatMap (iterEvents nzchunk)

/-- Chunk index of a compute event. -/
def chunkOfCompute : Ev → Option Nat
  | .compute c _ => some c
  | _ => none

/-- Chunk index of a write-job dispatch event. -/
def chunkOfDispatch : Ev → Option Nat
  | .dispatch c => some c
  | _ => none

/-- Chunk index of an ingest event. -/
def chunkOfIngest : Ev → Option Nat
  | .ingest c _ => some c
  | _ => none

/-- Chunk index of a device-to-host copy event. -/
def chunkOfEgestCopy : Ev → Option Nat
  | .egestCopy c _ => some c
  | _ => none

/-- Keeps the three stage events, dropping synchronizations and the
write-job handoff. -/
def stageOf : Ev → Option Ev
  | .ingest c g => some (.ingest c g)
  | .compute c g => some (.compute c g)
  | .egestCopy c g => some (.egestCopy c g)
  | _ => none

lemma filterMap_flatMap {α β γ : Type} (l : List α) (g : α → List β) (f : β → Option γ) :
    (l.flatMap g).filterMap f = l.flatMap fun a => (g a).filterMap f := by
  induction l with
  | nil => rfl
  | cons a t ih => simp [List.flatMap_cons, List.filterMap_append, ih]

lemma iter_filterMap_compute (n k : Nat) :
    (iterEvents n k).filterMap chunkOfCompute
      = if 0 < k ∧ k < n + 1 then [k - 1] else [] := by
  unfold iterEvents
  by_cases h1 : 0 < k ∧ k < n + 1 <;> by_cases h2 : 1 < k <;> by_cases h3 : k < n <;>
    simp [h1, h2, h3, chunkOfCompute, List.filterMap_append]

lemma iter_filterMap_dispatch (n k : Nat) :
    (iterEvents n k).filterMap chunkOfDispatch
      = if 1 < k then [k - 2] else [] := by
  unfold iterEvents
  by_cases h1 : 0 < k ∧ k < n + 1 <;> by_cases h2 : 1 < k <;> by_cases h3 : k < n <;>
    simp [h1, h2, h3, chunkOfDispatch, List.filterMap_append]

lemma iter_filterMap_egestCopy (n k : Nat) :
    (iterEvents n k).filterMap chunkOfEgestCopy
      = if 1 < k then [k - 2] else [] := by
  unfold iterEvents
  by_cases h1 : 0 < k ∧ k < n + 1 <;> by_cases h2 : 1 < k <;> by_cases h3 : k < n <;>
    simp [h1, h2, h3, chunkOfEgestCopy, List.filterMap_append]

lemma iter_filterMap_ingest (n k : Nat) :
    (iterEvents n k).filterMap chunkOfIngest
      = if k < n then [k] else [] := by
  unfold iterEvents
  by_cases h1 : 0 < k ∧ k < n + 1 <;> by_cases h2 : 1 < k <;> by_cases h3 : k < n <;>
    simp [h1, h2, h3, chunkOfIngest, List.filterMap_append]

lemma range_flatMap_compute (n : Nat) :
    ∀ m, m ≤ n + 1 →
      (List.range m).flatMap (fun k => if 0 < k ∧ k < n + 1 then [k - 1] else [])
        = List.range (m - 1) := by
  intro m
  induction m with
  | zero => intro _; rfl
  | succ m ih =>
    intro hm
    rw [List.range_succ, List.flatMap_append, ih (Nat.le_of_succ_le hm)]
    match m with
    | 0 => simp
    | Nat.succ m' =>
      have hlt : m' + 1 < n + 1 := Nat.lt_of_succ_le hm
      have hcond : 0 < m' + 1 ∧ m' + 1 < n + 1 := ⟨Nat.succ_pos m', hlt⟩
      simp only [List.flatMap_cons, List.flatMap_nil, List.append_nil, if_pos hcond,
        Nat.succ_sub_one]
      rw [← List.range_succ]

lemma range_flatMap_lag2 {β : Type} (f : Nat → β) :
    ∀ m, (List.range (m + 2)).flatMap (fun k => if 1 < k then [f (k - 2)] else [])
      = (List.range m).map f := by
  intro m
  induction m with
  | zero => rfl
  | succ m ih =>
    have hstep : m + 1 + 2 = (m + 2) + 1 := rfl
    rw [hstep, List.range_succ, List.flatMap_append, ih]
    have hc : 1 < m + 2 := by omega
    simp [hc, List.range_succ]

lemma range_flatMap_ingest (n : Nat) :
    ∀ m, (List.range m).flatMap (fun k => if k < n then [k] else [])
      = List.range (min m n) := by
  intro m
  induction m with
  | zero => simp
  | succ m ih =>
    rw [List.range_succ, List.flatMap_append, ih]
    by_cases h : m < n
    · have : min m n = m := by omega
      have h2 : min (m + 1) n = m + 1 := by omega
      simp [h, this, h2, List.range_succ]
    · have : min m n = n := by omega
      have h2 : min (m + 1) n = n := by omega
      simp [h, this, h2]

lemma trace_compute_chunks (n : Nat) :
    (reconTrace n).filterMap chunkOfCompute = List.range n := by
  rw [reconTrace, loopIters, filterMap_flatMap]
  simp only [iter_filterMap_compute]
  have hstep : n + 2 = (n + 1) + 1 := rfl
  rw [hstep, List.range_succ, List.flatMap_append,
    range_flatMap_compute n (n + 1) (Nat.le_refl _)]
  have hno : ¬(0 < n + 1 ∧ n + 1 < n + 1) := by omega
  simp [hno]

lemma trace_dispatch_chunks (n : Nat) :
    (reconTrace n).filterMap chunkOfDispatch = List.range n := by
  rw [reconTrace, loopIters, filterMap_flatMap]
  simp only [iter_filterMap_dispatch]
  have h := range_flatMap_lag2 (fun j => j) n
  simpa using h

lemma trace_ingest_chunks (n : Nat) :
    (reconTrace n).filterMap chunkOfIngest = List.range n := by
  rw [reconTrace, loopIters, filterMap_flatMap]
  simp only [iter_filterMap_ingest]
  have h := range_flatMap_ingest n (n + 2)
  have hmin : min (n + 2) n = n := by omega
  rw [h, hmin]

/-- C1: For every totalChunks, the loop runs totalChunks+2 iterations;
compute fires exactly when `0 < k < totalChunks+1` on chunk `k-1`, the
write dispatch fires exactly when `1 < k` on chunk `k-2`, ingest fires
exactly when `k < totalChunks` on chunk `k`; over the whole run each
stage touches each chunk index exactly once, in order, so there are
exactly totalChunks compute invocations and totalChunks egest
dispatches; and for totalChunks = 3 the firing pattern is the five-row
table of the claim. -/
theorem C1_scheduler_firing (n : Nat) :
    (loopIters n).length = n + 2
    ∧ (∀ k, (iterEvents n k).filterMap chunkOfCompute
        = if 0 < k ∧ k < n + 1 then [k - 1] else [])
    ∧ (∀ k, (iterEvents n k).filterMap chunkOfDispatch
        = if 1 < k then [k - 2] else [])
    ∧ (∀ k, (iterEvents n k).filterMap chunkOfEgestCopy
        = if 1 < k then [k - 2] else [])
    ∧ (∀ k, (iterEvents n k).filterMap chunkOfIngest
        = if k < n then [k] else [])
    ∧ (reconTrace n).filterMap chunkOfCompute = List.range n
    ∧ (reconTrace n).filterMap chunkOfDispatch = List.range n
    ∧ (reconTrace n).filterMap chunkOfIngest = List.range n
    ∧ (loopIters 3).map (fun k => (iterEvents 3 k).filterMap stageOf)
        = [[Ev.ingest 0 0],
           [Ev.compute 0 0, Ev.ingest 1 1],
           [Ev.compute 1 1, Ev.egestCopy 0 0, Ev.ingest 2 0],
           [Ev.compute 2 0, Ev.egestCopy 1 1],
           [Ev.egestCopy 2 0]] := by
  refine ⟨by simp [loopIters], iter_filterMap_compute n, iter_filterMap_dispatch n,
    iter_filterMap_egestCopy n, iter_filterMap_ingest n,
    trace_compute_chunks n, trace_dispatch_chunks n, trace_ingest_chunks n, ?_⟩
  decide

/-- A stage event uses the generation equal to its chunk index modulo 2
(the buffer-parity invariant); synchronization and dispatch events are
unconstrained. -/
def genOk : Ev → Prop
  | .ingest c g => g = c % 2
  | .compute c g => g = c % 2
  | .egestCopy c g => g = c % 2
  | _ => True

lemma genOk_iter (n k : Nat) : ∀ e ∈ iterEvents n k, genOk e := by
  unfold iterEvents
  by_cases h1 : 0 < k ∧ k < n + 1 <;> by_cases h2 : 1 < k <;> by_cases h3 : k < n <;>
    simp only [h1, h2, h3, true_and, and_true, and_self, if_true, if_false] <;>
    intro e he <;>
    simp only [List.mem_append, List.mem_cons, List.not_mem_nil, List.mem_singleton,
      false_or, or_false] at he
  all_goals casesm* _ ∨ _
  all_goals subst_vars
  all_goals simp [genOk]

/-- C2: every stage event of the conveyor trace - pinned and device
ingest writes, compute reads and reconstruction-buffer writes, and the
device-to-host egest copy - runs at buffer generation chunkId % 2. -/
theorem C2_generation_parity (n : Nat) (e : Ev) (he : e ∈ reconTrace n) : genOk e := by
  rw [reconTrace, List.mem_flatMap] at he
  obtain ⟨k, _, hk⟩ := he
  exact genOk_iter n k e hk

theorem C2_witness : Ev.ingest 0 0 ∈ reconTrace 1 ∧ genOk (Ev.ingest 0 0) :=
  ⟨by decide, C2_generation_parity 1 (Ev.ingest 0 0) (by decide)⟩

/-- The three pipeline stage blocks of the loop body (the stream2
reconstruction block, the stream3 copy block and the ingest block). -/
def isStage : Ev → Prop
  | .ingest _ _ => True
  | .compute _ _ => True
  | .egestCopy _ _ => True
  | _ => False

/-- C4: every loop iteration ends by synchronizing the transfer-out
stream (sync3), then handing the write job for chunk k-2 to its worker
slot, and only after that synchronizing the transfer-in stream (sync1)
and the compute stream (sync2); everything before sync3 is one of the
three stage blocks. -/
theorem C4_sync_order (n k : Nat) :
    ∃ pre, iterEvents n k
        = pre ++ ([Ev.sync3]
            ++ (if 1 < k then [Ev.dispatch (k - 2)] else [])
            ++ [Ev.sync1, Ev.sync2])
      ∧ ∀ e ∈ pre, isStage e := by
  refine ⟨(if 0 < k ∧ k < n + 1 then [Ev.compute (k - 1) ((k - 1) % 2)] else [])
      ++ (if 1 < k then [Ev.egestCopy (k - 2) ((k - 2) % 2)] else [])
      ++ (if k < n then [Ev.ingest k (k % 2)] else []), ?_, ?_⟩
  · unfold iterEvents
    simp [List.append_assoc]
  · intro e he
    simp only [List.mem_append] at he
    rcases he with (he | he) | he <;> split at he <;> simp_all [isStage]

/-- Events acting on the write pool during one recon_all call: `disp s`
models write_threads[s].run (rec.py 196) and `join s` models the final
write_threads[s].join (rec.py 202-203). -/
inductive WEv where
  | disp (slot : Nat)
  | join (slot : Nat)
  deriving DecidableEq

/-- Modelled from the spec: WRThread.join blocks until the job running
on the slot (if any) has finished (utils.WRThread is not under src;
spec section 4.2 joinAll).  The pending multiset of outstanding write
jobs grows at a run call and loses every job of a slot when that slot is
joined. -/
def pendingStep (p : List Nat) : WEv → List Nat
  | .disp s => p ++ [s]
  | .join s => p.filter fun x => x != s

/-- Outstanding write jobs (by slot) after a sequence of pool events. -/
def pendingAfter (evs : List WEv) : List Nat := evs.foldl pendingStep []

/-- The write-pool event sequence of one recon_all call: the conveyor
loop dispatches jobs to slots `ds` in order, and after the loop every
slot of the pool of size `w` is joined (rec.py 202-203). -/
def reconAllWriteEvents (w : Nat) (ds : List Nat) : List WEv :=
  ds.map WEv.disp ++ (List.range w).map WEv.join

lemma foldl_pendingStep_disp (ds : List Nat) :
    ∀ p, (ds.map WEv.disp).foldl pendingStep p = p ++ ds := by
  induction ds with
  | nil => intro p; simp
  | cons d t ih =>
    intro p
    simp only [List.map_cons, List.foldl_cons, pendingStep, ih, List.append_assoc,
      List.singleton_append]

lemma foldl_pendingStep_join (el : List Nat) :
    ∀ p, ((el.map WEv.join).foldl pendingStep p) = p.filter fun x => !(el.contains x) := by
  induction el with
  | nil => intro p; simp
  | cons j t ih =>
    intro p
    simp only [List.map_cons, List.foldl_cons, pendingStep, ih, List.filter_filter]
    apply List.filter_congr
    intro x _
    by_cases hxj : x = j <;> simp [hxj, List.contains_cons, Bool.not_or]

lemma pendingAfter_reconAll (w : Nat) (ds : List Nat) (h : ∀ s ∈ ds, s < w) :
    pendingAfter (reconAllWriteEvents w ds) = [] := by
  rw [pendingAfter, reconAllWriteEvents, List.foldl_append, foldl_pendingStep_disp,
    foldl_pendingStep_join]
  rw [List.filter_eq_nil_iff]
  intro s hs
  have hc : (List.range w).contains s = true := by
    rw [List.contains_eq_any_beq]
    refine List.any_eq_true.mpr ⟨s, List.mem_range.mpr (h s hs), ?_⟩
    simp
  simp only [hc, Bool.not_true, Bool.false_eq_true, not_false_eq_true]

/-- C7: after the conveyor loop of recon_all, every write-pool thread is
joined before the call returns, so whatever slots the loop dispatched
write jobs to (all of them slots of the pool), no write job is still
outstanding at return. -/
theorem C7_join_drains_pool (w : Nat) (ds : List Nat) (h : ∀ s ∈ ds, s < w) :
    pendingAfter (reconAllWriteEvents w ds) = [] :=
  pendingAfter_reconAll w ds h

theorem C7_witness :
    (∀ s ∈ [0, 1, 0], s < 2) ∧ pendingAfter (reconAllWriteEvents 2 [0, 1, 0]) = [] :=
  ⟨by decide, C7_join_drains_pool 2 [0, 1, 0] (by decide)⟩

/-- C8: with totalChunks = 0 the conveyor loop still runs exactly 2
iterations in which no ingest (hence no queue pull), no compute and no
egest fires - the trace is only stream synchronizations - and the final
join loop still drains a pool of any size, whose dispatch list is empty. -/
theorem C8_zero_chunks :
    (loopIters 0).length = 2
    ∧ reconTrace 0 = [Ev.sync3, Ev.sync1, Ev.sync2, Ev.sync3, Ev.sync1, Ev.sync2]
    ∧ (reconTrace 0).filterMap chunkOfIngest = []
    ∧ (reconTrace 0).filterMap chunkOfCompute = []
    ∧ (reconTrace 0).filterMap chunkOfDispatch = []
    ∧ ∀ w, pendingAfter (reconAllWriteEvents w []) = [] := by
  refine ⟨by decide, by decide, by decide, by decide, by decide, ?_⟩
  intro w
  exact pendingAfter_reconAll w [] (by intro s hs; simp at hs)

/-- Elementwise interleave of two equal-length flat sequences: the flat
order of cp.concatenate((a[..., newaxis], b[..., newaxis]), axis=3)
after the reshape back to the original shape (fourierrec.py 71-72). -/
def interleave2 {α : Type} : List α → List α → List α
  | a :: as, b :: bs => a :: b :: interleave2 as bs
  | _, _ => []

/-- The input layout transform of FourierRec.backprojection
(fourierrec.py 71-72): split the volume into its two half-height bands
(data[:nz//2] and data[nz//2:], which in flat row-major order are the
first and second halves of the flat sequence, all rows having equal
width) and interleave them pairwise element-major. -/
def interleaveHalves {α : Type} (x : List α) : List α :=
  interleave2 (x.take (x.length / 2)) (x.drop (x.length / 2))

/-- Elements at even flat positions. -/
def evens {α : Type} : List α → List α
  | [] => []
  | [a] => [a]
  | a :: _ :: t => a :: evens t

/-- Elements at odd flat positions. -/
def odds {α : Type} : List α → List α
  | [] => []
  | [_] => []
  | _ :: b :: t => b :: odds t

/-- The output layout transform of FourierRec.backprojection
(fourierrec.py 74-76): view the volume as rows of width 2n
(obj.reshape(nz//2, n, 2n)), take the even-indexed columns then the
odd-indexed columns and concatenate them along the row axis.  Because
every reshaped row has the even width 2n, the in-row column parity of an
element equals its flat-position parity, so on the flat sequence the
transform is the even-position elements followed by the odd-position
elements. -/
def deinterleaveHalves {α : Type} (x : List α) : List α := evens x ++ odds x

lemma evens_interleave2 {α : Type} :
    ∀ as bs : List α, as.length = bs.length → evens (interleave2 as bs) = as := by
  intro as
  induction as with
  | nil => intro bs _; rfl
  | cons a as ih =>
    intro bs h
    cases bs with
    | nil => simp at h
    | cons b bs =>
      show evens (a :: b :: interleave2 as bs) = a :: as
      rw [show evens (a :: b :: interleave2 as bs) = a :: evens (interleave2 as bs) from rfl]
      rw [ih bs (by simpa using h)]

lemma odds_interleave2 {α : Type} :
    ∀ as bs : List α, as.length = bs.length → odds (interleave2 as bs) = bs := by
  intro as
  induction as with
  | nil =>
    intro bs h
    cases bs with
    | nil => rfl
    | cons b bs => simp at h
  | cons a as ih =>
    intro bs h
    cases bs with
    | nil => simp at h
    | cons b bs =>
      show odds (a :: b :: interleave2 as bs) = b :: bs
      rw [show odds (a :: b :: interleave2 as bs) = b :: odds (interleave2 as bs) from rfl]
      rw [ih bs (by simpa using h)]

lemma deinterleave_interleave_flat {α : Type} (x : List α) (h : Even x.length) :
    deinterleaveHalves (interleaveHalves x) = x := by
  obtain ⟨m, hm⟩ := h
  have hhalf : x.length / 2 = m := by omega
  have htake : (x.take (x.length / 2)).length = m := by
    rw [List.length_take, hhalf]
    omega
  have hdrop : (x.drop (x.length / 2)).length = m := by
    rw [List.length_drop, hhalf]
    omega
  rw [deinterleaveHalves, interleaveHalves,
    evens_interleave2 _ _ (htake.trans hdrop.symm),
    odds_interleave2 _ _ (htake.trans hdrop.symm),
    List.take_append_drop]

lemma flatten_length_of_uniform {α : Type} (w : Nat) :
    ∀ v : List (List α), (∀ r ∈ v, r.length = w) → v.flatten.length = v.length * w := by
  intro v
  induction v with
  | nil => intro _; simp
  | cons r t ih =>
    intro h
    have hr : r.length = w := h r (List.mem_cons_self r t)
    have ht := ih fun s hs => h s (List.mem_cons_of_mem r hs)
    simp only [List.flatten_cons, List.length_append, hr, ht, List.length_cons]
    ring

/-- C3: for every volume with an even number of rows of equal width, the
output de-interleave transform applied to the input interleave transform
of the flattened volume reproduces the volume bit for bit. -/
theorem C3_interleave_roundtrip {α : Type} (v : List (List α)) (w : Nat)
    (hw : ∀ r ∈ v, r.length = w) (hev : Even v.length) :
    deinterleaveHalves (interleaveHalves v.flatten) = v.flatten := by
  apply deinterleave_interleave_flat
  rw [flatten_length_of_uniform w v hw]
  exact hev.mul_right w

theorem C3_witness :
    Even ([[0, 1], [2, 3]] : List (List Nat)).length
    ∧ deinterleaveHalves (interleaveHalves ([[0, 1], [2, 3]] : List (List Nat)).flatten)
        = ([[0, 1], [2, 3]] : List (List Nat)).flatten :=
  ⟨by decide, C3_interleave_roundtrip [[0, 1], [2, 3]] 2 (by decide) (by decide)⟩

/-- The (start row, end row, chunk id) triple handed to a write job for
the chunk with reader-assigned id `i` (rec.py 194-197):
st = ids[k-2]*ncz + start_row // 2**binning and end = st + lzchunk[ids[k-2]],
where `ofs` stands for start_row // 2**binning and `lz i` for lzchunk[i]. -/
def writeJobOf (lz : Nat → Nat) (ncz ofs i : Nat) : Nat × Nat × Nat :=
  (i * ncz + ofs, i * ncz + ofs + lz i, i)

/-- The write jobs dispatched by the conveyor loop of recon_all, derived
from the loop structure: at iteration `k` with `k > 1` the job for the
chunk delivered (k-2)-th from the queue is dispatched, addressed by the
id `ids[k-2]` recorded at ingest (rec.py 164, 182, 194-197).  `ids` is
the list of queue-delivered chunk ids in delivery order. -/
def writeJobsLoop (ids : List Nat) (lz : Nat → Nat) (ncz ofs : Nat) :
    List (Nat × Nat × Nat) :=
  (List.range (ids.length + 2)).flatMap fun k =>
    if 1 < k then [writeJobOf lz ncz ofs (ids.getD (k - 2) 0)] else []

lemma map_range_getD {β : Type} (l : List Nat) (F : Nat → β) :
    (List.range l.length).map (fun j => F (l.getD j 0)) = l.map F := by
  apply List.ext_getElem
  · simp
  · intro i h1 h2
    simp only [List.getElem_map, List.getElem_range, List.getD_eq_getElem?_getD]
    rw [List.getElem?_eq_getElem (by simpa using h2)]
    rfl

/-- C9: the j-th write job of recon_all is a function of the j-th
queue-delivered chunk id alone - its destination row range is
(id*ncz + ofs, id*ncz + ofs + lzchunk[id]) - so each written slab lands
at the output offset determined by the id the reader assigned it, for
every delivery order of the queue. -/
theorem C9_write_addressing_by_id (ids : List Nat) (lz : Nat → Nat) (ncz ofs : Nat) :
    writeJobsLoop ids lz ncz ofs = ids.map (writeJobOf lz ncz ofs) := by
  rw [writeJobsLoop, range_flatMap_lag2 (fun j => writeJobOf lz ncz ofs (ids.getD j 0))]
  exact map_range_getD ids (writeJobOf lz ncz ofs)

/-- Ingest of a chunk payload into one generation of a buffer of
`capacity` rows (rec.py 183-185): the slice assignment
item_pinned[name][k % 2, :, :lzchunk[ids[k]]] = item[name] overwrites
only the first `lz` rows and leaves the remaining rows of the buffer as
they were (stale). -/
def ingestRows {α : Type} (buf payload : List α) (lz : Nat) : List α :=
  payload.take lz ++ buf.drop lz

/-- The host-device copies of recon_all (rec.py 188-190 cpu to gpu, and
rec.py 178 gpu to cpu): item_gpu[name][k % 2].set(item_pinned[name][k % 2])
and rec_gpu[(k-2) % 2].get(out=rec_pinned[ithread]) copy the whole
generation buffer; the destination becomes an exact copy of the source,
its previous contents at every row being overwritten. -/
def transferFull {α : Type} (src _dst : List α) : List α := src

/-- Follows the words of claim C5, not the code: a transfer that copies
only the first `lz` rows of the source and leaves the remaining rows of
the destination unchanged. -/
def specOnlyValidRowsTransfer {α : Type} (lz : Nat) (src dst : List α) : List α :=
  src.take lz ++ dst.drop lz

/-- C5 fails as stated: with capacity 2, validRows 1, a generation
buffer holding stale row 8 beyond the one valid row, and a device buffer
previously holding row 0 at index 1, the transfer of the code copies the
stale row 8 onto the device, while a transfer of only validRows rows
would have left the device row 0 in place. -/
theorem C5_counterexample :
    transferFull (ingestRows [7, 8] [10] 1) ([0, 0] : List Nat)
      ≠ specOnlyValidRowsTransfer 1 (ingestRows [7, 8] [10] 1) ([0, 0] : List Nat) := by
  decide

/-- C5 amended: at ingest only the first validRows rows of the
generation buffer are overwritten with the payload and the remaining
rows keep their stale contents; the host-to-device and device-to-host
copies transfer the WHOLE capacity buffer, stale rows included; and the
write job dispatched at egest covers exactly validRows rows
(end - st = lzchunk[id]), so the stale rows fall outside the written
range. -/
theorem C5_shortened_last_chunk (buf payload dev : List Nat) (lz : Nat)
    (hp : payload.length = lz) :
    (ingestRows buf payload lz).take lz = payload
    ∧ (ingestRows buf payload lz).drop lz = buf.drop lz
    ∧ transferFull (ingestRows buf payload lz) dev = payload ++ buf.drop lz
    ∧ ∀ lzf ncz ofs i, (writeJobOf lzf ncz ofs i).2.1 - (writeJobOf lzf ncz ofs i).1 = lzf i := by
  have hfull : payload.take lz = payload := by
    rw [← hp, List.take_length]
  refine ⟨?_, ?_, ?_, ?_⟩
  · rw [ingestRows, hfull, List.take_left' hp]
  · rw [ingestRows, hfull, List.drop_left' hp]
  · rw [transferFull, ingestRows, hfull]
  · intro lzf ncz ofs i
    show i * ncz + ofs + lzf i - (i * ncz + ofs) = lzf i
    omega

theorem C5_witness :
    ([10] : List Nat).length = 1
    ∧ (ingestRows [7, 8] [10] 1).take 1 = [10]
    ∧ (ingestRows [7, 8] [10] 1).drop 1 = ([7, 8] : List Nat).drop 1 :=
  ⟨by decide, (C5_shortened_last_chunk [7, 8] [10] [0, 0] 1 (by decide)).1,
    (C5_shortened_last_chunk [7, 8] [10] [0, 0] 1 (by decide)).2.1⟩

/-- One all-ones chunk buffer of `ncz` rows of width `ni` (the leading
projection axis of the numpy shape is folded into the row width). -/
def onesChunk (ncz ni : Nat) : List (List Nat) :=
  List.replicate ncz (List.replicate ni 1)

/-- One all-zeros chunk buffer of `ncz` rows of width `ni`. -/
def zerosChunk (ncz ni : Nat) : List (List Nat) :=
  List.replicate ncz (List.replicate ni 0)

/-- The three named double-buffered arrays of recon_all; each field maps
generation index to the chunk buffer of that generation. -/
structure ItemBuffers where
  data : List (List (List Nat))
  dark : List (List (List Nat))
  flat : List (List (List Nat))

/-- The pinned item buffers as allocated at the start of recon_all
(rec.py 127-133): np.zeros([2, ...]) for data and dark, np.ones([2, ...])
for flat. -/
def initItemPinned (ncz ni : Nat) : ItemBuffers :=
  ⟨List.replicate 2 (zerosChunk ncz ni),
   List.replicate 2 (zerosChunk ncz ni),
   List.replicate 2 (onesChunk ncz ni)⟩

/-- The device item buffers as allocated at the start of recon_all
(rec.py 136-142): cp.zeros([2, ...]) for data and dark, cp.ones([2, ...])
for flat. -/
def initItemGpu (ncz ni : Nat) : ItemBuffers :=
  ⟨List.replicate 2 (zerosChunk ncz ni),
   List.replicate 2 (zerosChunk ncz ni),
   List.replicate 2 (onesChunk ncz ni)⟩

/-- C10: before any chunk is ingested, both generations of the
pinned-host and device flat buffers hold ones everywhere while the data
and dark buffers hold zeros everywhere; and after the first ingest
(which writes only generation 0), generation 1 of the flat buffer still
holds ones everywhere, so a stage reading a not-yet-ingested flat
generation observes ones, never zeros. -/
theorem C10_initial_buffer_fill (ncz ni g : Nat) (hg : g < 2) :
    ((initItemPinned ncz ni).flat.getD g [] = onesChunk ncz ni
      ∧ (initItemGpu ncz ni).flat.getD g [] = onesChunk ncz ni
      ∧ (initItemPinned ncz ni).data.getD g [] = zerosChunk ncz ni
      ∧ (initItemGpu ncz ni).data.getD g [] = zerosChunk ncz ni
      ∧ (initItemPinned ncz ni).dark.getD g [] = zerosChunk ncz ni
      ∧ (initItemGpu ncz ni).dark.getD g [] = zerosChunk ncz ni)
    ∧ (∀ r ∈ onesChunk ncz ni, ∀ x ∈ r, x = 1)
    ∧ (∀ r ∈ zerosChunk ncz ni, ∀ x ∈ r, x = 0)
    ∧ ∀ payload lz,
        (((initItemPinned ncz ni).flat.set 0
            (ingestRows ((initItemPinned ncz ni).flat.getD 0 []) payload lz)).getD 1 [])
          = onesChunk ncz ni := by
  have hones : ∀ r ∈ onesChunk ncz ni, ∀ x ∈ r, x = 1 := by
    intro r hr x hx
    rw [List.eq_of_mem_replicate hr] at hx
    exact List.eq_of_mem_replicate hx
  have hzeros : ∀ r ∈ zerosChunk ncz ni, ∀ x ∈ r, x = 0 := by
    intro r hr x hx
    rw [List.eq_of_mem_replicate hr] at hx
    exact List.eq_of_mem_replicate hx
  match g, hg with
  | 0, _ => exact ⟨⟨rfl, rfl, rfl, rfl, rfl, rfl⟩, hones, hzeros, fun _ _ => rfl⟩
  | 1, _ => exact ⟨⟨rfl, rfl, rfl, rfl, rfl, rfl⟩, hones, hzeros, fun _ _ => rfl⟩

theorem C10_witness :
    (0 : Nat) < 2
    ∧ (initItemPinned 4 3).flat.getD 0 [] = onesChunk 4 3 :=
  ⟨by decide, ((C10_initial_buffer_fill 4 3 0 (by decide)).1).1⟩

/-- True when slot `i` of the pool is idle; a slot index beyond the pool
counts as busy. -/
def isIdle (busy : List Bool) (i : Nat) : Bool := !(busy.getD i true)

/-- Modelled from the spec: utils.find_free_thread is not under src;
per spec section 4.2 findIdle scans the pool for the first idle slot
(blocking while none is idle, which the executor below models by
skipping the egest until a completion has freed a slot). -/
def findFreeThread (busy : List Bool) : Option Nat := busy.findIdx? fun b => !b

/-- Scheduler-visible write-pool events of a conveyor run: `complete i`
is the asynchronous completion of the job running on slot `i` (external
timing, may interleave anywhere); `egest cnt` is one egest block, which
calls find_free_thread once and then calls run `cnt` times on the
returned slot - cnt = 1 in recon_all (rec.py 177 and 196), and
cnt = lschunk[k-2] in recon_try (rec.py 252 and 257-259). -/
inductive SchedEv where
  | complete (i : Nat)
  | egest (cnt : Nat)
  deriving DecidableEq

/-- Modelled from the spec: utils.WRThread is not under src; per spec
sections 3 and 4.2 a run call marks the slot busy and a slot returns to
idle only on job completion.  `dispatchGroup busy i cnt` performs `cnt`
consecutive run calls on slot `i`, recording for each dispatch whether
the slot was idle at assignment time. -/
def dispatchGroup (busy : List Bool) (i : Nat) : Nat → List Bool × List (Nat × Bool)
  | 0 => (busy, [])
  | c + 1 =>
    ((dispatchGroup (busy.set i true) i c).1,
      (i, isIdle busy i) :: (dispatchGroup (busy.set i true) i c).2)

/-- Executes a sequence of pool events, returning the final busy flags
and the accumulated dispatch records (slot, idle-at-assignment). -/
def poolExec (busy : List Bool) : List SchedEv → List Bool × List (Nat × Bool)
  | [] => (busy, [])
  | SchedEv.complete i :: rest => poolExec (busy.set i false) rest
  | SchedEv.egest cnt :: rest =>
    match findFreeThread busy with
    | some i =>
      ((poolExec (dispatchGroup busy i cnt).1 rest).1,
        (dispatchGroup busy i cnt).2 ++ (poolExec (dispatchGroup busy i cnt).1 rest).2)
    | none => poolExec busy rest

/-- The event shape of recon_all: every egest group dispatches exactly
one job per find_free_thread call; completions are unrestricted. -/
def reconAllPattern : SchedEv → Prop
  | .egest c => c = 1
  | .complete _ => True

/-- Event sequences containing no completion. -/
def noComplete : SchedEv → Prop
  | .complete _ => False
  | .egest _ => True

lemma findFreeThread_isIdle (busy : List Bool) (i : Nat)
    (h : findFreeThread busy = some i) : isIdle busy i = true := by
  rw [findFreeThread] at h
  obtain ⟨hlen, hp, -⟩ := List.findIdx?_eq_some_iff_getElem.mp h
  rw [isIdle, List.getD_eq_getElem?_getD, List.getElem?_eq_getElem hlen]
  exact hp

lemma isIdle_set_true (busy : List Bool) (i j : Nat)
    (h : isIdle (busy.set i true) j = true) : isIdle busy j = true := by
  rw [isIdle, List.getD_eq_getElem?_getD] at h ⊢
  rw [List.getElem?_set] at h
  by_cases hij : i = j
  · subst hij
    by_cases hlen : i < busy.length
    · simp [hlen] at h
    · simp [hlen] at h
  · rw [if_neg hij] at h
    exact h

lemma dispatchGroup_fst :
    ∀ (c : Nat) (busy : List Bool) (i : Nat),
      (dispatchGroup busy i c).1 = busy ∨ (dispatchGroup busy i c).1 = busy.set i true := by
  intro c
  induction c with
  | zero => intro busy i; left; rfl
  | succ c ih =>
    intro busy i
    rcases ih (busy.set i true) i with h | h
    · right
      exact h
    · right
      rw [dispatchGroup]
      rw [h, List.set_set]

lemma poolExec_all_observed_idle :
    ∀ (evs : List SchedEv) (busy : List Bool), (∀ e ∈ evs, reconAllPattern e) →
      ((poolExec busy evs).2.all fun r => r.2) = true := by
  intro evs
  induction evs with
  | nil => intro busy _; rfl
  | cons e rest ih =>
    intro busy hall
    have hrest : ∀ x ∈ rest, reconAllPattern x :=
      fun x hx => hall x (List.mem_cons_of_mem e hx)
    match e with
    | SchedEv.complete i => exact ih (busy.set i false) hrest
    | SchedEv.egest cnt =>
      have hcnt : cnt = 1 := hall (SchedEv.egest cnt) (List.mem_cons_self _ _)
      subst hcnt
      rw [poolExec]
      cases hf : findFreeThread busy with
      | none => exact ih busy hrest
      | some i =>
        simp only
        rw [show (dispatchGroup busy i 1).2 = [(i, isIdle busy i)] from rfl]
        rw [List.all_append]
        rw [findFreeThread_isIdle busy i hf, ih (dispatchGroup busy i 1).1 hrest]
        rfl

lemma poolExec_no_new_idle :
    ∀ (evs : List SchedEv) (busy : List Bool) (j : Nat), (∀ e ∈ evs, noComplete e) →
      isIdle (poolExec busy evs).1 j = true → isIdle busy j = true := by
  intro evs
  induction evs with
  | nil => intro busy j _ h; exact h
  | cons e rest ih =>
    intro busy j hall h
    have hrest : ∀ x ∈ rest, noComplete x :=
      fun x hx => hall x (List.mem_cons_of_mem e hx)
    match e with
    | SchedEv.complete i =>
      exact absurd (hall (SchedEv.complete i) (List.mem_cons_self _ _)) (by simp [noComplete])
    | SchedEv.egest cnt =>
      rw [poolExec] at h
      cases hf : findFreeThread busy with
      | none =>
        rw [hf] at h
        exact ih busy j hrest h
      | some i =>
        rw [hf] at h
        simp only at h
        have hmid := ih (dispatchGroup busy i cnt).1 j hrest h
        rcases dispatchGroup_fst cnt busy i with hfst | hfst
        · rw [hfst] at hmid
          exact hmid
        · rw [hfst] at hmid
          exact isIdle_set_true busy i j hmid

/-- C6 fails as stated: a recon_try iteration with lschunk[k-2] = 2 on a
pool of two idle slots, with no completion between the two run calls of
the fan-out loop, dispatches its second write job to the slot it just
made busy - that dispatch is not to a slot observed idle at assignment
time. -/
theorem C6_counterexample :
    ((poolExec [false, false] [SchedEv.egest 2]).2.all fun r => r.2) = false := by
  decide

/-- C6 amended: in recon_all (one run call per find_free_thread call)
every write job is dispatched to a slot observed idle at assignment
time, under any interleaving of completions; in recon_try only the
first run call of each per-iteration fan-out group is so dispatched,
the remaining lschunk[k-2] - 1 calls reusing the same slot without
re-checking idleness; and a busy slot becomes idle only through a
completion event. -/
theorem C6_dispatch_discipline :
    (∀ (evs : List SchedEv) (busy : List Bool), (∀ e ∈ evs, reconAllPattern e) →
      ((poolExec busy evs).2.all fun r => r.2) = true)
    ∧ (∀ (busy : List Bool) (i c : Nat), findFreeThread busy = some i →
      (dispatchGroup busy i (c + 1)).2.head? = some (i, true))
    ∧ (∀ (evs : List SchedEv) (busy : List Bool) (j : Nat), (∀ e ∈ evs, noComplete e) →
      isIdle (poolExec busy evs).1 j = true → isIdle busy j = true) := by
  refine ⟨poolExec_all_observed_idle, ?_, poolExec_no_new_idle⟩
  intro busy i c hf
  rw [dispatchGroup]
  simp only [List.head?_cons]
  rw [findFreeThread_isIdle busy i hf]

theorem C6_witness :
    ((poolExec [false] [SchedEv.egest 1]).2.all fun r => r.2) = true :=
  C6_dispatch_discipline.1 [SchedEv.egest 1] [false]
    (by
      intro e he
      rw [List.mem_singleton] at he
      subst he
      rfl)

end Tomocupy
